import Mathlib

/-!
# Verification of the ThunderKittens shared-tile layer

Shallow embedding of the shared-tile data model (`st`, `st_subtile`), the
swizzled address function `idx`, the warp transfer engine
(`load` / `store` / `atomic_add` from `shared_to_register.cuh`) and the
WGMMA dispatcher guards (`base::rt_st`, `base::st_st`).

Machine integers are embedded as `Nat` with an explicit `% 2^32` where the
source computes in `uint32_t`.  Addresses are byte addresses.
-/

namespace TK

/-- The `uint32_t` modulus: address arithmetic in the source is 32-bit. -/
def WORD : ℕ := 2 ^ 32

/-- Modelled from the spec: the base-tile quantum's row count
(`kittens::TILE_ROW_DIM<T>` lives in `common/common.cuh`, which is not under
`src/`; the spec fixes the quantum, "hardware-defined, e.g. 16 rows"). -/
def TILE_ROW_DIM : ℕ := 16

/-- Modelled from the spec: the base-tile quantum's column count per element
byte-width (`kittens::TILE_COL_DIM<T>`, also from the absent `common.cuh`).
The spec's derived swizzle period (32/64/128 bytes, always a multiple of one
quantum row's bytes) forces 32 columns for 1-byte elements and 16 otherwise. -/
def TILE_COL_DIM (es : ℕ) : ℕ := if es = 1 then 32 else 16

/-- `st::swizzle_bytes` (src/unnamed/part_001, lines 72-84): the swizzle
period derived from element byte-width `es = sizeof(dtype)` and the tile
width in base-tile quanta (`underlying_width`).  `-1` is the source's
marker for an invalid element width. -/
def swizzle_bytes (es width : ℕ) : ℤ :=
  if es = 1 then
    (if width % 4 = 0 then 128 else if width % 2 = 0 then 64 else 32)
  else if es = 2 then
    (if width % 4 = 0 then 128 else if width % 2 = 0 then 64 else 32)
  else if es = 4 then
    (if width % 2 = 0 then 128 else 64)
  else -1

/-- A shared-tile descriptor `st<T, _rows, _cols>`: element byte-width
`es = sizeof(T)` plus the compile-time shape. -/
structure st where
  es : ℕ
  rows : ℕ
  cols : ℕ

/-- `st::underlying_width = _cols / TILE_COL_DIM<T>`. -/
def st.width (t : st) : ℕ := t.cols / TILE_COL_DIM t.es

/-- The tile's swizzle period in bytes, as a `Nat`. -/
def st.swz (t : st) : ℕ := (swizzle_bytes t.es t.width).toNat

/-- The source's `static_assert`s and supported element widths for `st`:
rows and cols divisible by the base-tile quantum, element width 1, 2 or 4. -/
def st.wf (t : st) : Prop :=
  (t.es = 1 ∨ t.es = 2 ∨ t.es = 4) ∧
  t.rows % TILE_ROW_DIM = 0 ∧ t.cols % TILE_COL_DIM t.es = 0 ∧
  0 < t.rows ∧ 0 < t.cols

/-- The XOR-swizzle term `((addr % swizzle_repeat) >> 7) << 4`
(src/unnamed/part_001, line 104). -/
def swizzleTerm (swizzle_repeat addr : ℕ) : ℕ :=
  ((addr % swizzle_repeat) >>> 7) <<< 4

/-- The pre-XOR byte address of element `(r, c)`:
`ptr + sizeof(T)*(outer_idx*rows*subtile_cols + r*subtile_cols + c%subtile_cols)`
(src/unnamed/part_001, line 103), reduced `mod 2^32` as in the source's
`uint32_t` arithmetic. -/
def st.rawAddr (t : st) (ptr r c : ℕ) : ℕ :=
  let subtile_cols := t.swz / t.es
  let outer_idx := c / subtile_cols
  (ptr + t.es * (outer_idx * t.rows * subtile_cols + r * subtile_cols +
    c % subtile_cols)) % WORD

/-- `st::idx(uint32_t ptr, int2 coord)` (src/unnamed/part_001, lines 98-106):
the swizzled byte address of the element at `(r, c)`. -/
def st.idx (t : st) (ptr r c : ℕ) : ℕ :=
  let swizzle_repeat := t.swz * 8
  let addr := t.rawAddr ptr r c
  let swizzle := swizzleTerm swizzle_repeat addr
  addr ^^^ swizzle

/-- `st::operator[](const int2&)` (src/unnamed/part_001, lines 113-118):
coordinate access through the swizzled address.  The backing buffer is
element-indexed with its base at byte address 0 (the buffer is
`KITTENS_DEFAULT_ALIGN`-aligned, so the base sits on the swizzle-period
boundary). -/
def st.getCoord {α : Type} (t : st) (data : ℕ → α) (r c : ℕ) : α :=
  data (t.idx 0 r c / t.es)

/-- `st::operator[](int idx)` (src/unnamed/part_001, lines 119-124):
raw linear access `data[idx]`, no swizzle. -/
def st.getLinear {α : Type} (_t : st) (data : ℕ → α) (i : ℕ) : α :=
  data i

/-- `st_subtile<ST, _subtile_rows, _subtile_cols>`
(src/unnamed/part_001, lines 146-177): a non-owning window into a parent
tile. -/
structure st_subtile where
  parent : st
  rows : ℕ
  cols : ℕ
  row_offset : ℕ
  col_offset : ℕ

/-- The `st_subtile(ST &src, int2 rowcol)` constructor
(src/unnamed/part_001, lines 179-183):
`row_offset = rowcol.x * rows; col_offset = rowcol.y * cols`. -/
def st_subtile.make (src : st) (rows cols x y : ℕ) : st_subtile :=
  { parent := src, rows := rows, cols := cols,
    row_offset := x * rows, col_offset := y * cols }

/-- `st_subtile::idx(uint32_t ptr, int2 coord)`
(src/unnamed/part_001, lines 194-202): identical address math to `st::idx`
except that the coordinate is shifted by the subtile's offsets and the row
multiplier is the parent's `underlying_rows`; `swizzle_bytes` is the
parent's. -/
def st_subtile.idx (s : st_subtile) (ptr r0 c0 : ℕ) : ℕ :=
  let t := s.parent
  let r := r0 + s.row_offset
  let c := c0 + s.col_offset
  let swizzle_repeat := t.swz * 8
  let subtile_cols := t.swz / t.es
  let outer_idx := c / subtile_cols
  let addr := (ptr + t.es * (outer_idx * t.rows * subtile_cols +
    r * subtile_cols + c % subtile_cols)) % WORD
  let swizzle := swizzleTerm swizzle_repeat addr
  addr ^^^ swizzle

/-- `st_subtile::operator[](const int2&)` (src/unnamed/part_001,
lines 209-214), element-indexed over the parent's backing buffer. -/
def st_subtile.getCoord {α : Type} (s : st_subtile) (data : ℕ → α)
    (r c : ℕ) : α :=
  data (s.idx 0 r c / s.parent.es)

/-- The XOR-swizzle step as a standalone address permutation
(`addr ^ ((addr % swizzle_repeat) >> 7) << 4`). -/
def xorSwiz (swizzle_repeat addr : ℕ) : ℕ :=
  addr ^^^ swizzleTerm swizzle_repeat addr

/-- The swizzle-period rule in the spec's own wording (spec section 3):
"for 1- and 2-byte elements, period is 128 bytes if width is a multiple of
4 base-quanta, 64 if a multiple of 2, else 32; for 4-byte elements, 128 if
width is a multiple of 2 base-quanta, else 64; other widths are invalid". -/
def swizzle_bytes_specform (es width : ℕ) : ℤ :=
  if es = 1 ∨ es = 2 then
    (if width % 4 = 0 then 128 else if width % 2 = 0 then 64 else 32)
  else if es = 4 then
    (if width % 2 = 0 then 128 else 64)
  else -1

/-! ### Transfer engine (`ops/warp/memory/tile/shared_to_register.cuh`)

The register tile `rt` and the hardware wrappers `move<>`/`atomic<>` live in
headers that are not under `src/`; the embedding models a register fragment
as the four packed pairs one lane holds for one base tile, a shared-memory
image as a byte-addressed value map, and the grouped `ldsm`/`stsm` wrappers
as pattern-parametric reads/writes (see `ldsmRead`).  Conversions between
equal element types (`base_types::convertor` with `T = U`) are the identity
and are elided.  The root-tile branch of the 4-byte row-major path is
modelled with explicit `ro`/`co` offsets, which are zero for a root tile
(the `else` branch of the source adds `src.row_offset`/`src.col_offset`). -/

/-- Register-fragment orientation (`ducks::rt_layout::row` / `col`). -/
inductive RTLayout
  | row
  | col
deriving DecidableEq

/-- One lane's register data for one base tile: `rt_base::data[4]`, four
packed 2-element pairs. -/
def Frag (α : Type) : Type := Fin 4 → α × α

/-- A shared-memory image: byte address of an element slot to its value. -/
def Mem (α : Type) : Type := ℕ → α

/-- The operand binding used by the transposed `ldsm4t`/`stsm4t` calls: the
source lists registers in the order `tmp[0], tmp[2], tmp[1], tmp[3]`, i.e.
operand slots 1 and 2 are swapped (a self-inverse permutation). -/
def ldsmPerm : Fin 4 → Fin 4 :=
  fun k => if k = 1 then 2 else if k = 2 then 1 else k

/-- Modelled from the spec: the grouped strided load wrappers
`move<U2>::ldsm4 / ldsm4t` (declared in external util headers, not under
`src/`; spec section 6 lists them among consumed "hardware primitive
wrappers for ... grouped strided load"), with the lane-address-to-slot
pattern `pat` an architecture parameter: slot `k` of the instruction reads
the packed pair at the two element addresses `pat a k`.  Register `σ k`
receives operand slot `k`, where `σ` is the positional operand binding of
the call site. -/
def ldsmRead {α : Type} (pat : ℕ → Fin 4 → ℕ × ℕ) (σ : Fin 4 → Fin 4)
    (mem : Mem α) (a : ℕ) : Frag α :=
  fun k => (mem (pat a (σ k)).1, mem (pat a (σ k)).2)

/-- Modelled from the spec: the grouped strided store wrappers
`move<U2>::stsm4 / stsm4t`, the inverse of `ldsmRead` over the same
pattern (spec section 4.3: "Store: inverse of load"): operand slot `k`,
holding register `σ k`, is written to the pair of addresses `pat a k`. -/
def ldsmWrites {α : Type} (pat : ℕ → Fin 4 → ℕ × ℕ) (σ : Fin 4 → Fin 4)
    (a : ℕ) (frag : Frag α) : List (ℕ × α) :=
  (List.finRange 4).flatMap fun k =>
    [((pat a k).1, (frag (σ k)).1), ((pat a k).2, (frag (σ k)).2)]

/-- Lane base address for the 16-bit `ldsm`/`stsm` paths:
`row = i*tile_size_row + laneid%16`, `col = j*tile_size_col + (laneid/16)*8`
(shared_to_register.cuh lines 51-52, 179-180). -/
def ldsmBase16 (t : st) (sh l i j : ℕ) : ℕ :=
  t.idx sh (i * TILE_ROW_DIM + l % 16) (j * TILE_COL_DIM t.es + l / 16 * 8)

/-- Lane base address for the 1-byte (fp8) `ldsm`/`stsm` paths:
`col = j*tile_size_col + (laneid/16)*16` (lines 68-69, 217-218). -/
def ldsmBase8 (t : st) (sh l i j : ℕ) : ℕ :=
  t.idx sh (i * TILE_ROW_DIM + l % 16) (j * TILE_COL_DIM t.es + l / 16 * 16)

/-- `int blit = sizeof(typename ST::dtype)*((laneid%4)/2)` (line 92):
the lane-parity byte that is XORed into the swizzle of the 4-byte
row-major path. -/
def blit4 (es l : ℕ) : ℕ := es * (l % 4 / 2)

/-- The two base addresses `addr_1` (`dr = 0`) and `addr_2` (`dr = 8`) of
the 4-byte row-major path (lines 97-98): the un-swizzled address of
`(row + dr, col)` with `row = i*tile_size_row + laneid/4 + row_offset`,
`col = j*tile_size_col + 2*(laneid%4) + col_offset` (offsets zero for a
root tile). -/
def rm4Addr (t : st) (sh ro co l i j dr : ℕ) : ℕ :=
  let row := i * TILE_ROW_DIM + l / 4 + ro
  let col := j * TILE_COL_DIM t.es + 2 * (l % 4) + co
  let subtile_cols := t.swz / t.es
  let outer_idx := col / subtile_cols
  (sh + t.es * (outer_idx * t.rows * subtile_cols + (row + dr) * subtile_cols
    + col % subtile_cols)) % WORD

/-- The 4-byte row-major load (lines 81-118): eight `lds` element reads at
the blit-adjusted swizzled addresses, then the pairwise swap when `blit`
is non-zero. -/
def load4RowFrag {α : Type} (t : st) (sh ro co : ℕ) (mem : Mem α)
    (l i j : ℕ) : Frag α :=
  let blit := blit4 t.es l
  let addr1 := rm4Addr t sh ro co l i j 0
  let addr2 := rm4Addr t sh ro co l i j 8
  let swz1 := blit ^^^ swizzleTerm (t.swz * 8) addr1
  let swz2 := blit ^^^ swizzleTerm (t.swz * 8) addr2
  let tmp : Frag α := fun k =>
    if k = 0 then (mem ((addr1 + 0) % WORD ^^^ swz1), mem ((addr1 + 4) % WORD ^^^ swz1))
    else if k = 1 then (mem ((addr2 + 0) % WORD ^^^ swz2), mem ((addr2 + 4) % WORD ^^^ swz2))
    else if k = 2 then (mem ((addr1 + 32) % WORD ^^^ swz1), mem ((addr1 + 36) % WORD ^^^ swz1))
    else (mem ((addr2 + 32) % WORD ^^^ swz2), mem ((addr2 + 36) % WORD ^^^ swz2))
  if blit ≠ 0 then (fun k => ((tmp k).2, (tmp k).1)) else tmp

/-- The 4-byte row-major store (lines 226-271): the pairwise swap when
`blit` is non-zero, then eight `sts` element writes at the blit-adjusted
swizzled addresses, in source order. -/
def store4RowWrites {α : Type} (t : st) (sh ro co : ℕ) (frag : Frag α)
    (l i j : ℕ) : List (ℕ × α) :=
  let blit := blit4 t.es l
  let reg : Frag α := if blit ≠ 0 then (fun k => ((frag k).2, (frag k).1)) else frag
  let addr1 := rm4Addr t sh ro co l i j 0
  let addr2 := rm4Addr t sh ro co l i j 8
  let swz1 := blit ^^^ swizzleTerm (t.swz * 8) addr1
  let swz2 := blit ^^^ swizzleTerm (t.swz * 8) addr2
  [((addr1 + 0) % WORD ^^^ swz1, (reg 0).1),
   ((addr1 + 4) % WORD ^^^ swz1, (reg 0).2),
   ((addr1 + 32) % WORD ^^^ swz1, (reg 2).1),
   ((addr1 + 36) % WORD ^^^ swz1, (reg 2).2),
   ((addr2 + 0) % WORD ^^^ swz2, (reg 1).1),
   ((addr2 + 4) % WORD ^^^ swz2, (reg 1).2),
   ((addr2 + 32) % WORD ^^^ swz2, (reg 3).1),
   ((addr2 + 36) % WORD ^^^ swz2, (reg 3).2)]

/-- The column-major load for 2- and 4-byte elements (lines 120-137):
eight element reads through `idx`, `row = i*tile_size_row + 2*(laneid%4)`,
`col = j*tile_size_col + laneid/4`. -/
def loadColFrag {α : Type} (t : st) (sh : ℕ) (mem : Mem α)
    (l i j : ℕ) : Frag α :=
  let row := i * TILE_ROW_DIM + 2 * (l % 4)
  let col := j * TILE_COL_DIM t.es + l / 4
  fun k =>
    if k = 0 then (mem (t.idx sh (row + 0) (col + 0)), mem (t.idx sh (row + 1) (col + 0)))
    else if k = 1 then (mem (t.idx sh (row + 0) (col + 8)), mem (t.idx sh (row + 1) (col + 8)))
    else if k = 2 then (mem (t.idx sh (row + 8) (col + 0)), mem (t.idx sh (row + 9) (col + 0)))
    else (mem (t.idx sh (row + 8) (col + 8)), mem (t.idx sh (row + 9) (col + 8)))

/-- The column-major store for 2- and 4-byte elements (lines 196-207 and
272-289, identical bodies): eight element writes through `idx`, in source
order. -/
def storeColWrites {α : Type} (t : st) (sh : ℕ) (frag : Frag α)
    (l i j : ℕ) : List (ℕ × α) :=
  let row := i * TILE_ROW_DIM + 2 * (l % 4)
  let col := j * TILE_COL_DIM t.es + l / 4
  [(t.idx sh (row + 0) (col + 0), (frag 0).1),
   (t.idx sh (row + 1) (col + 0), (frag 0).2),
   (t.idx sh (row + 0) (col + 8), (frag 1).1),
   (t.idx sh (row + 1) (col + 8), (frag 1).2),
   (t.idx sh (row + 8) (col + 0), (frag 2).1),
   (t.idx sh (row + 9) (col + 0), (frag 2).2),
   (t.idx sh (row + 8) (col + 8), (frag 3).1),
   (t.idx sh (row + 9) (col + 8), (frag 3).2)]

/-- The non-Hopper 16-bit row-major store (lines 188-195): four packed
`sts` writes, each pair occupying the swizzled address and the next
element slot; `row = i*tile_size_row + laneid/4`,
`col = j*tile_size_col + 2*(laneid%4)`. -/
def store2RowWrites {α : Type} (t : st) (sh : ℕ) (frag : Frag α)
    (l i j : ℕ) : List (ℕ × α) :=
  let row := i * TILE_ROW_DIM + l / 4
  let col := j * TILE_COL_DIM t.es + 2 * (l % 4)
  [(t.idx sh (row + 0) (col + 0), (frag 0).1),
   ((t.idx sh (row + 0) (col + 0) + t.es) % WORD, (frag 0).2),
   (t.idx sh (row + 8) (col + 0), (frag 1).1),
   ((t.idx sh (row + 8) (col + 0) + t.es) % WORD, (frag 1).2),
   (t.idx sh (row + 0) (col + 8), (frag 2).1),
   ((t.idx sh (row + 0) (col + 8) + t.es) % WORD, (frag 2).2),
   (t.idx sh (row + 8) (col + 8), (frag 3).1),
   ((t.idx sh (row + 8) (col + 8) + t.es) % WORD, (frag 3).2)]

/-- `load` (shared_to_register.cuh lines 29-140): the `if constexpr`
dispatch over element size and fragment orientation.  The 1-byte branch
(lines 64-80) is guarded by `row_layout && sizeof==1`, so its inner
`ldsm4t` alternative is dead code and only `ldsm4` is reachable.  When no
branch applies the destination is left untouched (`prev`). -/
def loadFrag {α : Type} (t : st) (lay : RTLayout)
    (pat4 pat4t : ℕ → Fin 4 → ℕ × ℕ) (sh ro co : ℕ) (mem : Mem α)
    (prev : Frag α) (l i j : ℕ) : Frag α :=
  if t.es = 2 then
    (if lay = RTLayout.row then ldsmRead pat4 id mem (ldsmBase16 t sh l i j)
     else ldsmRead pat4t ldsmPerm mem (ldsmBase16 t sh l i j))
  else if lay = RTLayout.row ∧ t.es = 1 then
    ldsmRead pat4 id mem (ldsmBase8 t sh l i j)
  else if lay = RTLayout.row ∧ t.es = 4 then
    load4RowFrag t sh ro co mem l i j
  else if t.es ≠ 1 then
    loadColFrag t sh mem l i j
  else prev

/-- `store` (lines 152-292): the dispatch over element size and
orientation; `hopper` selects the `#ifdef KITTENS_HOPPER` branch of the
16-bit case (`stsm4`/`stsm4t` vs explicit `sts`).  When no branch applies
nothing is written. -/
def storeFragWrites {α : Type} (hopper : Bool) (t : st) (lay : RTLayout)
    (pat4 pat4t : ℕ → Fin 4 → ℕ × ℕ) (sh ro co : ℕ) (frag : Frag α)
    (l i j : ℕ) : List (ℕ × α) :=
  if t.es = 2 then
    (if hopper then
      (if lay = RTLayout.row then ldsmWrites pat4 id (ldsmBase16 t sh l i j) frag
       else ldsmWrites pat4t ldsmPerm (ldsmBase16 t sh l i j) frag)
     else
      (if lay = RTLayout.row then store2RowWrites t sh frag l i j
       else storeColWrites t sh frag l i j))
  else if t.es = 1 then
    (if lay = RTLayout.row then ldsmWrites pat4 id (ldsmBase8 t sh l i j) frag
     else ldsmWrites pat4t ldsmPerm (ldsmBase8 t sh l i j) frag)
  else if lay = RTLayout.row ∧ t.es = 4 then
    store4RowWrites t sh ro co frag l i j
  else if t.es ≠ 1 then
    storeColWrites t sh frag l i j
  else []

/-- `static_assert(sizeof(ST::dtype) != 1, "atomic_add is not supported
for this type")` (line 308): the compile-time guard of `atomic_add`. -/
def atomic_add_compiles (es : ℕ) : Prop := es ≠ 1

/-- The 16-bit row-major `atomic_add` contributions (lines 332-338): four
packed `atomic<U2>::adds` at the same coordinates as the explicit store. -/
def add2RowWrites {α : Type} (t : st) (sh : ℕ) (frag : Frag α)
    (l i j : ℕ) : List (ℕ × α) :=
  let row := i * TILE_ROW_DIM + l / 4
  let col := j * TILE_COL_DIM t.es + 2 * (l % 4)
  [(t.idx sh (row + 0) (col + 0), (frag 0).1),
   ((t.idx sh (row + 0) (col + 0) + t.es) % WORD, (frag 0).2),
   (t.idx sh (row + 8) (col + 0), (frag 1).1),
   ((t.idx sh (row + 8) (col + 0) + t.es) % WORD, (frag 1).2),
   (t.idx sh (row + 0) (col + 8), (frag 2).1),
   ((t.idx sh (row + 0) (col + 8) + t.es) % WORD, (frag 2).2),
   (t.idx sh (row + 8) (col + 8), (frag 3).1),
   ((t.idx sh (row + 8) (col + 8) + t.es) % WORD, (frag 3).2)]

/-- The column-major `atomic_add` contributions (lines 339-350 and
397-414, identical bodies): eight `atomic<U>::adds` through `idx`. -/
def addColWrites {α : Type} (t : st) (sh : ℕ) (frag : Frag α)
    (l i j : ℕ) : List (ℕ × α) :=
  let row := i * TILE_ROW_DIM + 2 * (l % 4)
  let col := j * TILE_COL_DIM t.es + l / 4
  [(t.idx sh (row + 0) (col + 0), (frag 0).1),
   (t.idx sh (row + 1) (col + 0), (frag 0).2),
   (t.idx sh (row + 0) (col + 8), (frag 1).1),
   (t.idx sh (row + 1) (col + 8), (frag 1).2),
   (t.idx sh (row + 8) (col + 0), (frag 2).1),
   (t.idx sh (row + 9) (col + 0), (frag 2).2),
   (t.idx sh (row + 8) (col + 8), (frag 3).1),
   (t.idx sh (row + 9) (col + 8), (frag 3).2)]

/-- The 4-byte row-major `atomic_add` contributions (lines 351-396): the
same blit juggling and addresses as `store4RowWrites`, with
`atomic<U>::adds` instead of `sts`. -/
def add4RowWrites {α : Type} (t : st) (sh ro co : ℕ) (frag : Frag α)
    (l i j : ℕ) : List (ℕ × α) :=
  let blit := blit4 t.es l
  let reg : Frag α := if blit ≠ 0 then (fun k => ((frag k).2, (frag k).1)) else frag
  let addr1 := rm4Addr t sh ro co l i j 0
  let addr2 := rm4Addr t sh ro co l i j 8
  let swz1 := blit ^^^ swizzleTerm (t.swz * 8) addr1
  let swz2 := blit ^^^ swizzleTerm (t.swz * 8) addr2
  [((addr1 + 0) % WORD ^^^ swz1, (reg 0).1),
   ((addr1 + 4) % WORD ^^^ swz1, (reg 0).2),
   ((addr1 + 32) % WORD ^^^ swz1, (reg 2).1),
   ((addr1 + 36) % WORD ^^^ swz1, (reg 2).2),
   ((addr2 + 0) % WORD ^^^ swz2, (reg 1).1),
   ((addr2 + 4) % WORD ^^^ swz2, (reg 1).2),
   ((addr2 + 32) % WORD ^^^ swz2, (reg 3).1),
   ((addr2 + 36) % WORD ^^^ swz2, (reg 3).2)]

/-- `atomic_add` (lines 302-417): the dispatch over element size and
orientation; the 1-byte case is rejected by the `static_assert`. -/
def atomicAddWrites {α : Type} (t : st) (lay : RTLayout) (sh ro co : ℕ)
    (frag : Frag α) (l i j : ℕ) : List (ℕ × α) :=
  if t.es = 2 then
    (if lay = RTLayout.row then add2RowWrites t sh frag l i j
     else addColWrites t sh frag l i j)
  else if lay = RTLayout.row ∧ t.es = 4 then
    add4RowWrites t sh ro co frag l i j
  else if t.es ≠ 1 then
    addColWrites t sh frag l i j
  else []

/-- Which `if constexpr` branch of `load` fires for a given element size
and orientation (`none` when the chain falls through). -/
def loadCase (es : ℕ) (lay : RTLayout) : Option (Fin 4) :=
  if es = 2 then some 0
  else if lay = RTLayout.row ∧ es = 1 then some 1
  else if lay = RTLayout.row ∧ es = 4 then some 2
  else if es ≠ 1 then some 3
  else none

/-- Which `if constexpr` branch of `store` fires. -/
def storeCase (es : ℕ) (lay : RTLayout) : Option (Fin 4) :=
  if es = 2 then some 0
  else if es = 1 then some 1
  else if lay = RTLayout.row ∧ es = 4 then some 2
  else if es ≠ 1 then some 3
  else none

/-- The supported element-width/orientation combinations of the Transfer
Engine: the ones for which both `load` and `store` select a
data-movement case. -/
def supportedTransfer (es : ℕ) (lay : RTLayout) : Prop :=
  es = 2 ∨ (es = 1 ∧ lay = RTLayout.row) ∨ es = 4

/-- All writes a warp issues for a full store: lanes 0..31, tile blocks
`(i, j)` over the register tile's height and width. -/
def warpWrites {α : Type} (height width : ℕ)
    (f : ℕ → ℕ → ℕ → List (ℕ × α)) : List (ℕ × α) :=
  (List.range 32).flatMap fun l =>
    (List.range height).flatMap fun i =>
      (List.range width).flatMap fun j => f l i j

/-- Apply a list of plain (overwriting) stores to a memory image. -/
def applyWrites {α : Type} (ws : List (ℕ × α)) (m : Mem α) : Mem α :=
  ws.foldl (fun acc w => Function.update acc w.1 w.2) m

/-- Apply a list of atomic-add contributions to a memory image: each
contribution adds to, rather than overwrites, the current value. -/
def applyAtomicAdds {α : Type} [Add α] (ws : List (ℕ × α)) (m : Mem α) :
    Mem α :=
  ws.foldl (fun acc w => Function.update acc w.1 (acc w.1 + w.2)) m

/-! ### WGMMA dispatcher (`ops/group/memory/tile/tile.cuh`,
`base<T_D, T_AB, 80, trans_a, trans_b>::rt_st` / `st_st`) -/

/-- The scalar element types the library's tiles carry. -/
inductive GpuT
  | float
  | bf16
  | half
  | fp8e4m3
  | fp8e5m2
deriving DecidableEq

/-- The `static_assert` type guard of `base::rt_st` (tile.cuh lines 42-47):
"Invalid type combination for WGMMA" unless the accumulator/operand pair is
(float, bf16), (float, half) or (half, half). -/
def rt_st_type_ok (td tab : GpuT) : Prop :=
  (td = GpuT.float ∧ tab = GpuT.bf16)
  ∨ (td = GpuT.float ∧ tab = GpuT.half)
  ∨ (td = GpuT.half ∧ tab = GpuT.half)

/-- The `static_assert` sign guard (line 48 and line 185):
`scale_b == 1 || scale_b == -1`, "Invalid scale B (invert) option". -/
def scale_b_ok (scale_b : ℤ) : Prop := scale_b = 1 ∨ scale_b = -1

/-- The `static_assert` type guard of `base::st_st` (lines 179-184) — the
source repeats the `rt_st` assertion verbatim. -/
def st_st_type_ok (td tab : GpuT) : Prop :=
  (td = GpuT.float ∧ tab = GpuT.bf16)
  ∨ (td = GpuT.float ∧ tab = GpuT.half)
  ∨ (td = GpuT.half ∧ tab = GpuT.half)

instance (td tab : GpuT) : Decidable (rt_st_type_ok td tab) := by
  unfold rt_st_type_ok
  infer_instance

instance (td tab : GpuT) : Decidable (st_st_type_ok td tab) := by
  unfold st_st_type_ok
  infer_instance

instance (s : ℤ) : Decidable (scale_b_ok s) := by
  unfold scale_b_ok
  infer_instance

/-- Modelled from the spec: the fixed-shape asynchronous multiply-accumulate
hardware instruction `wgmma.mma_async...m64n80k16` issued by the dispatcher
(spec section 4.4; its literal encoding is an architecture parameter, spec
section 9): `D = (accumulate ? D : 0) + sign x A @ B`, over exactly
representable (integer-valued) entries, the requested operand transposes
resolved into the operand matrices.  `scale_d` is the runtime accumulate
flag, compared against zero as in the source's predicate `p`. -/
def wgmmaIssue (D : Matrix (Fin 64) (Fin 80) ℤ)
    (A : Matrix (Fin 64) (Fin 16) ℤ) (B : Matrix (Fin 16) (Fin 80) ℤ)
    (scale_d scale_b : ℤ) : Matrix (Fin 64) (Fin 80) ℤ :=
  (if scale_d ≠ 0 then D else 0) + scale_b • (A * B)

/-- `base::rt_st` (tile.cuh lines 36-172): the compile-time guards followed
by one hardware issue over the 64 x 80 accumulator; a failed `static_assert`
is a compile-time rejection, modelled as `none`. -/
def rt_st_model (td tab : GpuT) (scale_b : ℤ)
    (D : Matrix (Fin 64) (Fin 80) ℤ) (A : Matrix (Fin 64) (Fin 16) ℤ)
    (B : Matrix (Fin 16) (Fin 80) ℤ) (scale_d : ℤ) :
    Option (Matrix (Fin 64) (Fin 80) ℤ) :=
  if rt_st_type_ok td tab ∧ scale_b_ok scale_b then
    some (wgmmaIssue D A B scale_d scale_b)
  else none

/-- `base::st_st` (tile.cuh lines 173-318): as `rt_st` but with the A
operand supplied from a shared-tile descriptor. -/
def st_st_model (td tab : GpuT) (scale_b : ℤ)
    (D : Matrix (Fin 64) (Fin 80) ℤ) (A : Matrix (Fin 64) (Fin 16) ℤ)
    (B : Matrix (Fin 16) (Fin 80) ℤ) (scale_d : ℤ) :
    Option (Matrix (Fin 64) (Fin 80) ℤ) :=
  if st_st_type_ok td tab ∧ scale_b_ok scale_b then
    some (wgmmaIssue D A B scale_d scale_b)
  else none

/-! ## Lemmas and claim theorems -/

theorem pow2_split_xor (j a b : ℕ) :
    a ^^^ b = 2 ^ j * (a / 2 ^ j ^^^ b / 2 ^ j) + (a % 2 ^ j ^^^ b % 2 ^ j) := by
  have hlt : a % 2 ^ j ^^^ b % 2 ^ j < 2 ^ j :=
    Nat.xor_lt_two_pow (Nat.mod_lt _ (Nat.two_pow_pos j))
      (Nat.mod_lt _ (Nat.two_pow_pos j))
  apply Nat.eq_of_testBit_eq
  intro i
  rw [Nat.testBit_mul_pow_two_add _ hlt]
  by_cases h : i < j
  · simp [h, Nat.testBit_xor]
  · have ha : a / 2 ^ j = a >>> j := (Nat.shiftRight_eq_div_pow a j).symm
    have hb : b / 2 ^ j = b >>> j := (Nat.shiftRight_eq_div_pow b j).symm
    have hij : j + (i - j) = i := by omega
    simp [h, ha, hb, Nat.testBit_xor, hij]

theorem xor_small_div (j a b : ℕ) (hb : b < 2 ^ j) :
    (a ^^^ b) / 2 ^ j = a / 2 ^ j := by
  have h := pow2_split_xor j a b
  have hb0 : b / 2 ^ j = 0 := Nat.div_eq_of_lt hb
  have hlt : a % 2 ^ j ^^^ b % 2 ^ j < 2 ^ j :=
    Nat.xor_lt_two_pow (Nat.mod_lt _ (Nat.two_pow_pos j))
      (Nat.mod_lt _ (Nat.two_pow_pos j))
  rw [h, hb0, Nat.xor_zero, Nat.mul_add_div (Nat.two_pow_pos j),
    Nat.div_eq_of_lt hlt]
  omega

theorem xor_small_mod (j a b : ℕ) (hb : b < 2 ^ j) :
    (a ^^^ b) % 2 ^ j = a % 2 ^ j ^^^ b := by
  have h := pow2_split_xor j a b
  have hb0 : b / 2 ^ j = 0 := Nat.div_eq_of_lt hb
  have hbm : b % 2 ^ j = b := Nat.mod_eq_of_lt hb
  have hlt : a % 2 ^ j ^^^ b % 2 ^ j < 2 ^ j :=
    Nat.xor_lt_two_pow (Nat.mod_lt _ (Nat.two_pow_pos j))
      (Nat.mod_lt _ (Nat.two_pow_pos j))
  rw [h, hb0, Nat.xor_zero, Nat.mul_add_mod, hbm, Nat.mod_eq_of_lt]
  rw [hbm] at hlt
  exact hlt

theorem xor_dvd_pow2 (j a b : ℕ) (ha : 2 ^ j ∣ a) (hb : 2 ^ j ∣ b) :
    2 ^ j ∣ (a ^^^ b) := by
  have h := pow2_split_xor j a b
  have ha0 : a % 2 ^ j = 0 := Nat.mod_eq_zero_of_dvd ha
  have hb0 : b % 2 ^ j = 0 := Nat.mod_eq_zero_of_dvd hb
  rw [h, ha0, hb0]
  simp

/-- C4: for every tile descriptor the derived swizzle period agrees with the
spec's table — 1- and 2-byte elements: 128 bytes when the width is a multiple of
4 base-tile quanta, 64 when a multiple of 2, else 32; 4-byte elements: 128
when a multiple of 2, else 64; any other element width yields the invalid
marker `-1` rather than a usable period.  The period of an `st` is always
computed from element byte-width and width (`st.swz` is a function of the
descriptor), never stored independently. -/
theorem C4_swizzle_period :
    (∀ es width : ℕ, swizzle_bytes es width = swizzle_bytes_specform es width)
    ∧ (∀ t : st, t.swz = (swizzle_bytes t.es t.width).toNat) := by
  constructor
  · intro es width
    unfold swizzle_bytes swizzle_bytes_specform
    by_cases h1 : es = 1
    · simp [h1]
    · by_cases h2 : es = 2 <;> simp [h1, h2]
  · intro t
    rfl

/-- C2: the subtile address function computes exactly the parent's address
at the offset coordinate — `st_subtile::idx s ptr (r,c) =
st::idx parent ptr (r+row_offset, c+col_offset)` for every subtile, pointer
and local coordinate; consequently reading the subtile at `(r,c)` returns
the same element as reading the parent at the offset coordinate.  This holds
because the subtile uses the parent's `underlying_rows` (and the parent's
`swizzle_bytes`) in its address math, while the root tile uses its own
`rows`, which for the root coincide with its `underlying_rows`. -/
theorem C2_subtile_addressing :
    ∀ (s : st_subtile) (ptr r c : ℕ),
      s.idx ptr r c = s.parent.idx ptr (r + s.row_offset) (c + s.col_offset)
      ∧ ∀ (data : ℕ → ℤ),
          s.getCoord data r c
            = s.parent.getCoord data (r + s.row_offset) (c + s.col_offset) := by
  intro s ptr r c
  constructor
  · rfl
  · intro data
    rfl

theorem swizzleTerm_eq (B a : ℕ) :
    swizzleTerm (B * 8) a = a % (B * 8) / 128 * 16 := by
  unfold swizzleTerm
  rw [Nat.shiftLeft_eq, Nat.shiftRight_eq_div_pow]

theorem swizzleTerm_lt (B a : ℕ) (hB : B = 32 ∨ B = 64 ∨ B = 128) :
    swizzleTerm (B * 8) a < B := by
  rw [swizzleTerm_eq]
  rcases hB with h | h | h <;> subst h
  · omega
  · omega
  · omega

theorem swizzleTerm_lt128 (B a : ℕ) (hB : B = 32 ∨ B = 64 ∨ B = 128) :
    swizzleTerm (B * 8) a < 2 ^ 7 := by
  have h := swizzleTerm_lt B a hB
  have h2 : (2 : ℕ) ^ 7 = 128 := by norm_num
  rcases hB with hb | hb | hb <;> omega

theorem swizzleTerm_dvd16 (B a : ℕ) : 16 ∣ swizzleTerm (B * 8) a := by
  rw [swizzleTerm_eq]
  exact ⟨a % (B * 8) / 128, by ring⟩

theorem swizzleTerm_stable (B a : ℕ) (hB : B = 32 ∨ B = 64 ∨ B = 128) :
    swizzleTerm (B * 8) (a ^^^ swizzleTerm (B * 8) a) = swizzleTerm (B * 8) a := by
  obtain ⟨k, hk7, hkB⟩ : ∃ k, 7 ≤ k ∧ B * 8 = 2 ^ k := by
    rcases hB with h | h | h <;> subst h
    exacts [⟨8, by norm_num⟩, ⟨9, by norm_num⟩, ⟨10, by norm_num⟩]
  have hs7 : swizzleTerm (B * 8) a < 2 ^ 7 := swizzleTerm_lt128 B a hB
  have hsk : swizzleTerm (B * 8) a < 2 ^ k :=
    lt_of_lt_of_le hs7 (Nat.pow_le_pow_right (by norm_num) hk7)
  set s := swizzleTerm (B * 8) a with hsdef
  have h1 : (a ^^^ s) % (B * 8) = a % (B * 8) ^^^ s := by
    rw [hkB]
    exact xor_small_mod k _ _ (hkB ▸ hsk)
  have h2 : (a % (B * 8) ^^^ s) / 128 = a % (B * 8) / 128 := by
    have h128 : (2 : ℕ) ^ 7 = 128 := by norm_num
    have := xor_small_div 7 (a % (B * 8)) s hs7
    rwa [h128] at this
  rw [swizzleTerm_eq, h1, h2, hsdef, swizzleTerm_eq]

theorem xorSwiz_invol (B a : ℕ) (hB : B = 32 ∨ B = 64 ∨ B = 128) :
    xorSwiz (B * 8) (xorSwiz (B * 8) a) = a := by
  unfold xorSwiz
  rw [swizzleTerm_stable B a hB, Nat.xor_assoc, Nat.xor_self, Nat.xor_zero]

theorem xorSwiz_inj (B : ℕ) (hB : B = 32 ∨ B = 64 ∨ B = 128) :
    Function.Injective (xorSwiz (B * 8)) := by
  intro a b h
  have := congrArg (xorSwiz (B * 8)) h
  rwa [xorSwiz_invol B a hB, xorSwiz_invol B b hB] at this

theorem xorSwiz_block (B a : ℕ) (hB : B = 32 ∨ B = 64 ∨ B = 128) :
    xorSwiz (B * 8) a = 128 * (a / 128) + (a % 128 ^^^ swizzleTerm (B * 8) a)
      ∧ a % 128 ^^^ swizzleTerm (B * 8) a < 128 := by
  have hs : swizzleTerm (B * 8) a < 2 ^ 7 := by
    have := swizzleTerm_lt B a hB
    rcases hB with h | h | h <;> subst h <;> omega
  have h128 : (128 : ℕ) = 2 ^ 7 := by norm_num
  constructor
  · unfold xorSwiz
    have := pow2_split_xor 7 a (swizzleTerm (B * 8) a)
    rw [Nat.div_eq_of_lt hs, Nat.xor_zero, Nat.mod_eq_of_lt hs] at this
    rw [this, h128]
  · rw [h128]
    exact Nat.xor_lt_two_pow (Nat.mod_lt _ (by norm_num)) hs

theorem mixedRadix_val (R sc r c : ℕ) (hsc : 0 < sc) :
    (c / sc * R * sc + r * sc + c % sc) % sc = c % sc
    ∧ (c / sc * R * sc + r * sc + c % sc) / sc = c / sc * R + r := by
  have hrw : c / sc * R * sc + r * sc + c % sc
      = sc * (c / sc * R + r) + c % sc := by ring
  have hm : c % sc < sc := Nat.mod_lt _ hsc
  constructor
  · rw [hrw, Nat.mul_add_mod, Nat.mod_eq_of_lt hm]
  · rw [hrw, Nat.mul_add_div hsc, Nat.div_eq_of_lt hm, Nat.add_zero]

theorem mixedRadix_lt (R sc O r c : ℕ) (hsc : 0 < sc) (hr : r < R)
    (hc : c < O * sc) :
    c / sc * R * sc + r * sc + c % sc < O * (R * sc) := by
  have hm : c % sc < sc := Nat.mod_lt _ hsc
  have h1 : r * sc + c % sc < R * sc := by
    calc r * sc + c % sc < r * sc + sc := by omega
    _ = (r + 1) * sc := by ring
    _ ≤ R * sc := Nat.mul_le_mul_right _ (by omega)
  have h2 : c / sc < O := (Nat.div_lt_iff_lt_mul hsc).mpr hc
  calc c / sc * R * sc + r * sc + c % sc
      = c / sc * R * sc + (r * sc + c % sc) := by ring
    _ < c / sc * R * sc + R * sc := by omega
    _ = (c / sc + 1) * (R * sc) := by ring
    _ ≤ O * (R * sc) := Nat.mul_le_mul_right _ (by omega)

theorem mixedRadix_inj (R sc r1 c1 r2 c2 : ℕ) (hsc : 0 < sc)
    (hr1 : r1 < R) (hr2 : r2 < R)
    (h : c1 / sc * R * sc + r1 * sc + c1 % sc
       = c2 / sc * R * sc + r2 * sc + c2 % sc) :
    r1 = r2 ∧ c1 = c2 := by
  have hv1 := mixedRadix_val R sc r1 c1 hsc
  have hv2 := mixedRadix_val R sc r2 c2 hsc
  have hmod : c1 % sc = c2 % sc := by rw [← hv1.1, ← hv2.1, h]
  have hdiv : c1 / sc * R + r1 = c2 / sc * R + r2 := by
    rw [← hv1.2, ← hv2.2, h]
  have hr : r1 = r2 := by
    have e1 : (c1 / sc * R + r1) % R = r1 := by
      rw [Nat.mul_comm, Nat.mul_add_mod, Nat.mod_eq_of_lt hr1]
    have e2 : (c2 / sc * R + r2) % R = r2 := by
      rw [Nat.mul_comm, Nat.mul_add_mod, Nat.mod_eq_of_lt hr2]
    rw [← e1, ← e2, hdiv]
  have hq : c1 / sc = c2 / sc := by
    have hR : 0 < R := by omega
    have hmul : c1 / sc * R = c2 / sc * R := by omega
    exact Nat.eq_of_mul_eq_mul_right hR hmul
  constructor
  · exact hr
  · have e1 : sc * (c1 / sc) + c1 % sc = c1 := Nat.div_add_mod c1 sc
    have e2 : sc * (c2 / sc) + c2 % sc = c2 := Nat.div_add_mod c2 sc
    rw [hq, hmod] at e1
    omega

theorem mixedRadix_surj (R sc O k : ℕ) (hsc : 0 < sc) (hR : 0 < R)
    (hk : k < O * (R * sc)) :
    ∃ r c, r < R ∧ c < O * sc
      ∧ c / sc * R * sc + r * sc + c % sc = k := by
  have hRsc : 0 < R * sc := Nat.mul_pos hR hsc
  refine ⟨k / sc % R, k / (R * sc) * sc + k % sc, Nat.mod_lt _ hR, ?_, ?_⟩
  · have hq : k / (R * sc) < O := (Nat.div_lt_iff_lt_mul hRsc).mpr (by
      calc k < O * (R * sc) := hk
      _ = O * (R * sc) := rfl)
    have hm : k % sc < sc := Nat.mod_lt _ hsc
    calc k / (R * sc) * sc + k % sc < k / (R * sc) * sc + sc := by omega
      _ = (k / (R * sc) + 1) * sc := by ring
      _ ≤ O * sc := Nat.mul_le_mul_right _ (by omega)
  · have hm : k % sc < sc := Nat.mod_lt _ hsc
    have hcd : (k / (R * sc) * sc + k % sc) / sc = k / (R * sc) := by
      rw [show k / (R * sc) * sc + k % sc = sc * (k / (R * sc)) + k % sc by ring,
        Nat.mul_add_div hsc, Nat.div_eq_of_lt hm, Nat.add_zero]
    have hcm : (k / (R * sc) * sc + k % sc) % sc = k % sc := by
      rw [show k / (R * sc) * sc + k % sc = sc * (k / (R * sc)) + k % sc by ring,
        Nat.mul_add_mod, Nat.mod_eq_of_lt hm]
    rw [hcd, hcm]
    have e0 : R * sc * (k / (R * sc)) + k % (R * sc) = k := Nat.div_add_mod k (R * sc)
    have e1 : k % (R * sc) % sc = k % sc := Nat.mod_mod_of_dvd k ⟨R, by ring⟩
    have e2 : k % (sc * R) / sc = k / sc % R := Nat.mod_mul_right_div_self k sc R
    have e2' : k % (R * sc) / sc = k / sc % R := by rwa [Nat.mul_comm sc R] at e2
    have e3 : sc * (k % (R * sc) / sc) + k % (R * sc) % sc = k % (R * sc) :=
      Nat.div_add_mod _ sc
    have hfinal : k = R * sc * (k / (R * sc)) + (sc * (k / sc % R) + k % sc) := by
      rw [← e2', ← e1, e3]
      exact e0.symm
    conv_rhs => rw [hfinal]
    ring

theorem xorSwiz_lt (B N x : ℕ) (hB : B = 32 ∨ B = 64 ∨ B = 128)
    (h128 : 128 ∣ N) (hx : x < N) : xorSwiz (B * 8) x < N := by
  obtain ⟨hblk, hw⟩ := xorSwiz_block B x hB
  obtain ⟨m, rfl⟩ := h128
  omega

theorem xorSwiz_dvd (B x e : ℕ) (he : 2 ^ e ∣ 16) (hx : 2 ^ e ∣ x) :
    2 ^ e ∣ xorSwiz (B * 8) x :=
  xor_dvd_pow2 e _ _ hx (dvd_trans he (swizzleTerm_dvd16 B x))

theorem idx_eq_xorSwiz (t : st) (ptr r c : ℕ)
    (hlt : ptr + t.es * (c / (t.swz / t.es) * t.rows * (t.swz / t.es)
      + r * (t.swz / t.es) + c % (t.swz / t.es)) < WORD) :
    t.idx ptr r c = xorSwiz (t.swz * 8)
      (ptr + t.es * (c / (t.swz / t.es) * t.rows * (t.swz / t.es)
        + r * (t.swz / t.es) + c % (t.swz / t.es))) := by
  unfold st.idx st.rawAddr xorSwiz
  rw [Nat.mod_eq_of_lt hlt]

theorem supported_facts (es W : ℕ) (hes : es = 1 ∨ es = 2 ∨ es = 4) :
    ((st.mk es 16 (W * TILE_COL_DIM es)).swz = 32
      ∨ (st.mk es 16 (W * TILE_COL_DIM es)).swz = 64
      ∨ (st.mk es 16 (W * TILE_COL_DIM es)).swz = 128)
    ∧ es * ((st.mk es 16 (W * TILE_COL_DIM es)).swz / es)
        = (st.mk es 16 (W * TILE_COL_DIM es)).swz
    ∧ ((st.mk es 16 (W * TILE_COL_DIM es)).swz / es) ∣ (W * TILE_COL_DIM es)
    ∧ 0 < (st.mk es 16 (W * TILE_COL_DIM es)).swz / es
    ∧ 128 ∣ 16 * (W * TILE_COL_DIM es) * es := by
  have hwidth : (st.mk es 16 (W * TILE_COL_DIM es)).width = W := by
    rcases hes with h | h | h <;> subst h <;>
      simp [st.width, TILE_COL_DIM]
  rcases hes with h | h | h <;> subst h
  · by_cases h4 : W % 4 = 0
    · have hswz : (st.mk 1 16 (W * TILE_COL_DIM 1)).swz = 128 := by
        simp [st.swz, hwidth, swizzle_bytes, h4]
      rw [hswz]
      simp only [TILE_COL_DIM]
      norm_num
      omega
    · by_cases h2 : W % 2 = 0
      · have hswz : (st.mk 1 16 (W * TILE_COL_DIM 1)).swz = 64 := by
          simp [st.swz, hwidth, swizzle_bytes, h4, h2]
        rw [hswz]
        simp only [TILE_COL_DIM]
        norm_num
        omega
      · have hswz : (st.mk 1 16 (W * TILE_COL_DIM 1)).swz = 32 := by
          simp [st.swz, hwidth, swizzle_bytes, h4, h2]
        rw [hswz]
        simp only [TILE_COL_DIM]
        norm_num
        omega
  · by_cases h4 : W % 4 = 0
    · have hswz : (st.mk 2 16 (W * TILE_COL_DIM 2)).swz = 128 := by
        simp [st.swz, hwidth, swizzle_bytes, h4]
      rw [hswz]
      simp only [TILE_COL_DIM]
      norm_num
      omega
    · by_cases h2 : W % 2 = 0
      · have hswz : (st.mk 2 16 (W * TILE_COL_DIM 2)).swz = 64 := by
          simp [st.swz, hwidth, swizzle_bytes, h4, h2]
        rw [hswz]
        simp only [TILE_COL_DIM]
        norm_num
        omega
      · have hswz : (st.mk 2 16 (W * TILE_COL_DIM 2)).swz = 32 := by
          simp [st.swz, hwidth, swizzle_bytes, h4, h2]
        rw [hswz]
        simp only [TILE_COL_DIM]
        norm_num
        omega
  · by_cases h2 : W % 2 = 0
    · have hswz : (st.mk 4 16 (W * TILE_COL_DIM 4)).swz = 128 := by
        simp [st.swz, hwidth, swizzle_bytes, h2]
      rw [hswz]
      simp only [TILE_COL_DIM]
      norm_num
      omega
    · have hswz : (st.mk 4 16 (W * TILE_COL_DIM 4)).swz = 64 := by
        simp [st.swz, hwidth, swizzle_bytes, h2]
      rw [hswz]
      simp only [TILE_COL_DIM]
      norm_num
      omega

/-- C1 (amended): for every supported (element size, tile width) combination,
the shared-tile address function `idx` of a tile one base-quantum of rows
tall, restricted to the full 16-row slab `(row, col) ∈ [0,16) × [0,cols)`, is
injective and maps the slab exactly onto the element addresses of the
contiguous byte range `[0, 16*cols*es)` — a bijection onto a contiguous
address range of equal size; and the XOR-swizzle step
`addr ^ ((addr % (swizzle_bytes*8)) >> 7) << 4` permutes every 128-byte
aligned address range onto itself without collisions.  (Restricted to a
single base-tile quantum's `(row, col)` domain the function is still
injective, being the restriction of an injective map, but its image need not
be contiguous — see the counterexample.) -/
theorem C1_swizzle_bijection_amended (es W : ℕ)
    (hes : es = 1 ∨ es = 2 ∨ es = 4) (_hW : 0 < W)
    (hword : 16 * (W * TILE_COL_DIM es) * es ≤ WORD) :
    Set.InjOn (fun p : ℕ × ℕ => (st.mk es 16 (W * TILE_COL_DIM es)).idx 0 p.1 p.2)
      (Set.Ico 0 16 ×ˢ Set.Ico 0 (W * TILE_COL_DIM es))
    ∧ (fun p : ℕ × ℕ => (st.mk es 16 (W * TILE_COL_DIM es)).idx 0 p.1 p.2) ''
        (Set.Ico 0 16 ×ˢ Set.Ico 0 (W * TILE_COL_DIM es))
      = (fun k => es * k) '' Set.Ico 0 (16 * (W * TILE_COL_DIM es))
    ∧ (∀ a n : ℕ, 128 ∣ a → 128 ∣ n →
        Set.BijOn (xorSwiz ((st.mk es 16 (W * TILE_COL_DIM es)).swz * 8))
          (Set.Ico a (a + n)) (Set.Ico a (a + n))) := by
  obtain ⟨hB, hesc, hdvd, hscpos, h128N⟩ := supported_facts es W hes
  have hespos : 0 < es := by rcases hes with h | h | h <;> omega
  obtain ⟨e, hepow, hedvd⟩ : ∃ e : ℕ, es = 2 ^ e ∧ (2 : ℕ) ^ e ∣ 16 := by
    rcases hes with h | h | h <;> subst h
    exacts [⟨0, by norm_num⟩, ⟨1, by norm_num⟩, ⟨2, by norm_num⟩]
  set t : st := st.mk es 16 (W * TILE_COL_DIM es) with ht
  set cols : ℕ := W * TILE_COL_DIM es with hcols
  set B : ℕ := t.swz with hBdef
  set sc : ℕ := B / es with hscdef
  obtain ⟨O, hO⟩ := hdvd
  have htes : t.es = es := rfl
  have htrows : t.rows = 16 := rfl
  have hcolsO : cols = O * sc := by rw [hO]; ring
  have hlin : ∀ r c : ℕ, ℕ := fun r c => c / sc * 16 * sc + r * sc + c % sc
  have hNbytes : 128 ∣ 16 * cols * es := h128N
  have hlin_lt : ∀ r c : ℕ, r < 16 → c < cols →
      c / sc * 16 * sc + r * sc + c % sc < 16 * cols := by
    intro r c hr hc
    have h := mixedRadix_lt 16 sc O r c hscpos hr (by rw [← hcolsO]; exact hc)
    calc c / sc * 16 * sc + r * sc + c % sc < O * (16 * sc) := h
      _ = 16 * (O * sc) := by ring
      _ = 16 * cols := by rw [hcolsO]
  have hbridge : ∀ r c : ℕ, r < 16 → c < cols →
      t.idx 0 r c = xorSwiz (B * 8) (es * (c / sc * 16 * sc + r * sc + c % sc))
      ∧ es * (c / sc * 16 * sc + r * sc + c % sc) < 16 * cols * es := by
    intro r c hr hc
    have hlt : es * (c / sc * 16 * sc + r * sc + c % sc) < 16 * cols * es := by
      have := hlin_lt r c hr hc
      calc es * (c / sc * 16 * sc + r * sc + c % sc)
          < es * (16 * cols) := (Nat.mul_lt_mul_left hespos).mpr this
        _ = 16 * cols * es := by ring
    constructor
    · have hbr := idx_eq_xorSwiz t 0 r c (by
        rw [htes, ← hBdef, ← hscdef]
        simp only [Nat.zero_add]
        omega)
      rw [hbr]
      rw [htes, ← hBdef, ← hscdef]
      simp only [Nat.zero_add]
    · exact hlt
  refine ⟨?_, ?_, ?_⟩
  · intro p hp q hq h
    simp only [Set.mem_prod, Set.mem_Ico] at hp hq
    obtain ⟨⟨-, hp1⟩, -, hp2⟩ := hp
    obtain ⟨⟨-, hq1⟩, -, hq2⟩ := hq
    simp only [] at h
    rw [(hbridge p.1 p.2 hp1 hp2).1, (hbridge q.1 q.2 hq1 hq2).1] at h
    have h2 := xorSwiz_inj B hB h
    have h3 := Nat.eq_of_mul_eq_mul_left hespos h2
    have h4 := mixedRadix_inj 16 sc p.1 p.2 q.1 q.2 hscpos hp1 hq1 h3
    exact Prod.ext h4.1 h4.2
  · ext y
    simp only [Set.mem_image, Set.mem_prod, Set.mem_Ico]
    constructor
    · rintro ⟨p, ⟨⟨-, hp1⟩, -, hp2⟩, rfl⟩
      obtain ⟨hb, hlt⟩ := hbridge p.1 p.2 hp1 hp2
      rw [hb]
      have hdvd2 : es ∣ xorSwiz (B * 8) (es * (p.2 / sc * 16 * sc + p.1 * sc + p.2 % sc)) := by
        rw [hepow]
        exact xorSwiz_dvd B _ e hedvd ⟨_, by rw [← hepow]⟩
      have hlt2 : xorSwiz (B * 8) (es * (p.2 / sc * 16 * sc + p.1 * sc + p.2 % sc))
          < 16 * cols * es := xorSwiz_lt B _ _ hB hNbytes hlt
      obtain ⟨k, hk⟩ := hdvd2
      have hesk : es * k < es * (16 * cols) := by
        have hflip : (16 : ℕ) * cols * es = es * (16 * cols) := by ring
        omega
      exact ⟨k, ⟨Nat.zero_le _, Nat.lt_of_mul_lt_mul_left hesk⟩, hk.symm⟩
    · rintro ⟨k, ⟨-, hk⟩, rfl⟩
      have hxk : es * k < 16 * cols * es := by
        calc es * k < es * (16 * cols) := (Nat.mul_lt_mul_left hespos).mpr hk
          _ = 16 * cols * es := by ring
      have hz_lt : xorSwiz (B * 8) (es * k) < 16 * cols * es :=
        xorSwiz_lt B _ _ hB hNbytes hxk
      have hz_dvd : es ∣ xorSwiz (B * 8) (es * k) := by
        rw [hepow]
        exact xorSwiz_dvd B _ e hedvd ⟨k, by rw [← hepow]⟩
      obtain ⟨k2, hk2⟩ := hz_dvd
      have hk2lt : k2 < 16 * cols := by
        apply Nat.lt_of_mul_lt_mul_left (a := es)
        have hflip : (16 : ℕ) * cols * es = es * (16 * cols) := by ring
        omega
      obtain ⟨r, c, hr, hc, hrc⟩ := mixedRadix_surj 16 sc O k2 hscpos (by norm_num)
        (by rw [show O * (16 * sc) = 16 * (O * sc) from by ring, ← hcolsO]; exact hk2lt)
      refine ⟨(r, c), ⟨⟨Nat.zero_le _, hr⟩, Nat.zero_le _, by rw [hcolsO]; exact hc⟩, ?_⟩
      have hb := (hbridge r c hr (by rw [hcolsO]; exact hc)).1
      rw [hb, hrc, ← hk2]
      exact xorSwiz_invol B (es * k) hB
  · intro a n ha hn
    obtain ⟨qa, rfl⟩ := ha
    obtain ⟨qn, rfl⟩ := hn
    have hmaps : Set.MapsTo (xorSwiz (B * 8))
        (Set.Ico (128 * qa) (128 * qa + 128 * qn))
        (Set.Ico (128 * qa) (128 * qa + 128 * qn)) := by
      intro x hx
      simp only [Set.mem_Ico] at hx ⊢
      obtain ⟨hblk, hw⟩ := xorSwiz_block B x hB
      omega
    refine ⟨hmaps, (xorSwiz_inj B hB).injOn, ?_⟩
    intro y hy
    exact ⟨xorSwiz (B * 8) y, hmaps hy, xorSwiz_invol B y hB⟩

set_option maxRecDepth 40000 in
/-- C1, counterexample to the claim as stated: for the supported combination
element size 2, tile width 2 base-quanta (a 16 x 32 bf16 tile, swizzle period
64 bytes), the address function restricted to one base-tile quantum's
`(row, col)` domain `[0,16) x [0,16)` is NOT a bijection onto a contiguous
address range of equal size: no base address `b` makes the image equal the
256 consecutive element addresses starting at `b` (the image contains both
byte address 0 and byte address 512, which cannot both lie in a contiguous
512-byte / 256-element window). -/
theorem C1_counterexample :
    ¬ ∃ b : ℕ,
      Finset.image (fun p : ℕ × ℕ => (st.mk 2 16 32).idx 0 p.1 p.2)
        (Finset.range 16 ×ˢ Finset.range 16)
      = Finset.image (fun k => b + 2 * k) (Finset.range 256) := by
  rintro ⟨b, hb⟩
  have h0 : (0 : ℕ) ∈ Finset.image (fun p : ℕ × ℕ => (st.mk 2 16 32).idx 0 p.1 p.2)
      (Finset.range 16 ×ˢ Finset.range 16) := by decide
  have h512 : (512 : ℕ) ∈ Finset.image (fun p : ℕ × ℕ => (st.mk 2 16 32).idx 0 p.1 p.2)
      (Finset.range 16 ×ˢ Finset.range 16) := by decide
  rw [hb] at h0 h512
  simp only [Finset.mem_image, Finset.mem_range] at h0 h512
  obtain ⟨k0, hk0, he0⟩ := h0
  obtain ⟨k5, hk5, he5⟩ := h512
  omega

/-- Witness for C1 (amended) at the concrete supported combination
element size 2, width 1 base-quantum. -/
theorem C1_swizzle_bijection_amended_witness :
    (((2 : ℕ) = 1 ∨ (2 : ℕ) = 2 ∨ (2 : ℕ) = 4) ∧ 0 < 1
      ∧ 16 * (1 * TILE_COL_DIM 2) * 2 ≤ WORD)
    ∧ Set.InjOn (fun p : ℕ × ℕ => (st.mk 2 16 (1 * TILE_COL_DIM 2)).idx 0 p.1 p.2)
        (Set.Ico 0 16 ×ˢ Set.Ico 0 (1 * TILE_COL_DIM 2)) :=
  ⟨⟨by norm_num, by norm_num, by norm_num [WORD, TILE_COL_DIM]⟩,
   (C1_swizzle_bijection_amended 2 1 (by norm_num) (by norm_num)
     (by norm_num [WORD, TILE_COL_DIM])).1⟩

theorem wf_facts (t : st) (hes : t.es = 1 ∨ t.es = 2 ∨ t.es = 4)
    (hcol : t.cols % TILE_COL_DIM t.es = 0) :
    (t.swz = 32 ∨ t.swz = 64 ∨ t.swz = 128)
    ∧ t.es * (t.swz / t.es) = t.swz
    ∧ (t.swz / t.es) ∣ t.cols
    ∧ 0 < t.swz / t.es := by
  obtain ⟨es, rows, cols⟩ := t
  simp only [st.swz, st.width] at *
  rcases hes with h | h | h <;> subst h
  · have hcd : TILE_COL_DIM 1 = 32 := rfl
    rw [hcd] at hcol ⊢
    by_cases h4 : cols / 32 % 4 = 0
    · have hswz : (swizzle_bytes 1 (cols / 32)).toNat = 128 := by
        simp [swizzle_bytes, h4]
      rw [hswz]
      refine ⟨by norm_num, by norm_num, ?_, by norm_num⟩
      norm_num
      omega
    · by_cases h2 : cols / 32 % 2 = 0
      · have hswz : (swizzle_bytes 1 (cols / 32)).toNat = 64 := by
          simp [swizzle_bytes, h4, h2]
        rw [hswz]
        refine ⟨by norm_num, by norm_num, ?_, by norm_num⟩
        norm_num
        omega
      · have hswz : (swizzle_bytes 1 (cols / 32)).toNat = 32 := by
          simp [swizzle_bytes, h4, h2]
        rw [hswz]
        refine ⟨by norm_num, by norm_num, ?_, by norm_num⟩
        norm_num
        omega
  · have hcd : TILE_COL_DIM 2 = 16 := rfl
    rw [hcd] at hcol ⊢
    by_cases h4 : cols / 16 % 4 = 0
    · have hswz : (swizzle_bytes 2 (cols / 16)).toNat = 128 := by
        simp [swizzle_bytes, h4]
      rw [hswz]
      refine ⟨by norm_num, by norm_num, ?_, by norm_num⟩
      norm_num
      omega
    · by_cases h2 : cols / 16 % 2 = 0
      · have hswz : (swizzle_bytes 2 (cols / 16)).toNat = 64 := by
          simp [swizzle_bytes, h4, h2]
        rw [hswz]
        refine ⟨by norm_num, by norm_num, ?_, by norm_num⟩
        norm_num
        omega
      · have hswz : (swizzle_bytes 2 (cols / 16)).toNat = 32 := by
          simp [swizzle_bytes, h4, h2]
        rw [hswz]
        refine ⟨by norm_num, by norm_num, ?_, by norm_num⟩
        norm_num
        omega
  · have hcd : TILE_COL_DIM 4 = 16 := rfl
    rw [hcd] at hcol ⊢
    by_cases h2 : cols / 16 % 2 = 0
    · have hswz : (swizzle_bytes 4 (cols / 16)).toNat = 128 := by
        simp [swizzle_bytes, h2]
      rw [hswz]
      refine ⟨by norm_num, by norm_num, ?_, by norm_num⟩
      norm_num
      omega
    · have hswz : (swizzle_bytes 4 (cols / 16)).toNat = 64 := by
        simp [swizzle_bytes, h2]
      rw [hswz]
      refine ⟨by norm_num, by norm_num, ?_, by norm_num⟩
      norm_num
      omega

theorem xor_eq_left_iff (m s : ℕ) (h : m ^^^ s = m) : s = 0 := by
  have h2 : m ^^^ (m ^^^ s) = s := by
    rw [← Nat.xor_assoc, Nat.xor_self, Nat.zero_xor]
  rw [h, Nat.xor_self] at h2
  exact h2.symm

/-- C9: the single-integer accessor `st[i]` returns the element at raw
backing-buffer offset `i` with no swizzle applied; the coordinate accessor
`st[{r,c}]` returns the element at the swizzled address
`idx(0, {r,c}) / sizeof(T)`; and for every well-formed tile and in-range
coordinate, the two accessors can refer to the same storage location
(`idx / es = r*cols + c`) only when the XOR-swizzle term for that address
is zero. -/
theorem C9_accessors :
    (∀ (t : st) (data : ℕ → ℤ) (i : ℕ), t.getLinear data i = data i)
    ∧ (∀ (t : st) (data : ℕ → ℤ) (r c : ℕ),
        t.getCoord data r c = data (t.idx 0 r c / t.es))
    ∧ (∀ (t : st) (r c : ℕ), t.wf → r < t.rows → c < t.cols →
        t.rows * t.cols * t.es ≤ WORD →
        t.idx 0 r c / t.es = r * t.cols + c →
        swizzleTerm (t.swz * 8) (t.rawAddr 0 r c) = 0) := by
  refine ⟨fun _ _ _ => rfl, fun _ _ _ _ => rfl, ?_⟩
  intro t r c hwf hr hc hword heq
  obtain ⟨hes, hrowdvd, hcoldvd, hrowpos, hcolpos⟩ := hwf
  obtain ⟨hB, hesc, hscdvd, hscpos⟩ := wf_facts t hes hcoldvd
  have hespos : 0 < t.es := by rcases hes with h | h | h <;> omega
  obtain ⟨e, hepow, hedvd⟩ : ∃ e : ℕ, t.es = 2 ^ e ∧ (2 : ℕ) ^ e ∣ 16 := by
    rcases hes with h | h | h <;> rw [h]
    exacts [⟨0, by norm_num⟩, ⟨1, by norm_num⟩, ⟨2, by norm_num⟩]
  obtain ⟨j, hj⟩ : ∃ j : ℕ, t.swz = 2 ^ j := by
    rcases hB with h | h | h <;> rw [h]
    exacts [⟨5, by norm_num⟩, ⟨6, by norm_num⟩, ⟨7, by norm_num⟩]
  obtain ⟨O, hO⟩ := hscdvd
  set es := t.es with hesdef
  set B := t.swz with hBdef
  set sc := B / es with hscdef
  set lin := c / sc * t.rows * sc + r * sc + c % sc with hlindef
  have hlin_lt : lin < t.rows * t.cols := by
    have h := mixedRadix_lt t.rows sc O r c hscpos hr (by
      rw [hO, Nat.mul_comm sc O] at hc
      exact hc)
    calc lin < O * (t.rows * sc) := h
      _ = t.rows * (sc * O) := by ring
      _ = t.rows * t.cols := by rw [← hO]
  have hraw : t.rawAddr 0 r c = es * lin := by
    unfold st.rawAddr
    simp only [Nat.zero_add]
    rw [← hesdef, ← hBdef, ← hscdef, ← hlindef]
    apply Nat.mod_eq_of_lt
    have h1 : es * lin < es * (t.rows * t.cols) :=
      (Nat.mul_lt_mul_left hespos).mpr hlin_lt
    have hflip : t.rows * t.cols * es = es * (t.rows * t.cols) := by ring
    unfold WORD at hword ⊢
    omega
  set s := swizzleTerm (B * 8) (t.rawAddr 0 r c) with hsdef
  have hslt : s < B := by rw [hsdef]; exact swizzleTerm_lt B _ hB
  have hs16 : (16 : ℕ) ∣ s := by rw [hsdef]; exact swizzleTerm_dvd16 B _
  have hidx : t.idx 0 r c = t.rawAddr 0 r c ^^^ s := rfl
  have hdvd_idx : es ∣ t.idx 0 r c := by
    rw [hidx, hraw, hepow]
    exact xor_dvd_pow2 e _ _ ⟨lin, by rw [← hepow]⟩
      (dvd_trans hedvd hs16)
  have heq2 : t.idx 0 r c = es * (r * t.cols + c) := by
    rw [← heq]
    exact (Nat.mul_div_cancel' hdvd_idx).symm
  -- decompose both sides in base B
  have hm_lt : es * (c % sc) < B := by
    have h1 : c % sc < sc := Nat.mod_lt _ hscpos
    calc es * (c % sc) < es * sc := (Nat.mul_lt_mul_left hespos).mpr h1
      _ = B := hesc
  have hx_split : es * lin = B * (c / sc * t.rows + r) + es * (c % sc) := by
    rw [hlindef]
    calc es * (c / sc * t.rows * sc + r * sc + c % sc)
        = (es * sc) * (c / sc * t.rows + r) + es * (c % sc) := by ring
      _ = B * (c / sc * t.rows + r) + es * (c % sc) := by rw [hesc]
  have ht_split : es * (r * t.cols + c)
      = B * (r * O + c / sc) + es * (c % sc) := by
    have hc_split : c = sc * (c / sc) + c % sc := (Nat.div_add_mod c sc).symm
    calc es * (r * t.cols + c)
        = es * (r * (sc * O) + c) := by rw [← hO]
      _ = es * (r * (sc * O) + (sc * (c / sc) + c % sc)) := by rw [← hc_split]
      _ = (es * sc) * (r * O + c / sc) + es * (c % sc) := by ring
      _ = B * (r * O + c / sc) + es * (c % sc) := by rw [hesc]
  -- xor with s stays inside the B-block
  have hxor_split : t.idx 0 r c
      = B * (c / sc * t.rows + r) + (es * (c % sc) ^^^ s) := by
    rw [hidx, hraw, hx_split, hj]
    have hmlt : es * (c % sc) < 2 ^ j := by rw [← hj]; exact hm_lt
    have hslt2 : s < 2 ^ j := by rw [← hj]; exact hslt
    have hsplit := pow2_split_xor j (2 ^ j * (c / sc * t.rows + r) + es * (c % sc)) s
    rw [Nat.mul_add_div (Nat.two_pow_pos j), Nat.div_eq_of_lt hmlt,
      Nat.add_zero, Nat.mul_add_mod, Nat.mod_eq_of_lt hmlt,
      Nat.div_eq_of_lt hslt2, Nat.xor_zero, Nat.mod_eq_of_lt hslt2] at hsplit
    exact hsplit
  have hxor_small : es * (c % sc) ^^^ s < B := by
    rw [hj]
    exact Nat.xor_lt_two_pow (by rw [← hj]; exact hm_lt) (by rw [← hj]; exact hslt)
  -- compare the two decompositions modulo B
  have hBpos : 0 < B := by rcases hB with h | h | h <;> omega
  have hcmp : es * (c % sc) ^^^ s = es * (c % sc) := by
    have h1 : t.idx 0 r c % B = es * (c % sc) ^^^ s := by
      rw [hxor_split, Nat.mul_add_mod, Nat.mod_eq_of_lt hxor_small]
    have h2 : t.idx 0 r c % B = es * (c % sc) := by
      rw [heq2, ht_split, Nat.mul_add_mod, Nat.mod_eq_of_lt hm_lt]
    rw [← h1, h2]
  exact xor_eq_left_iff _ _ (by rw [Nat.xor_comm] at hcmp; rw [Nat.xor_comm]; exact hcmp)

/-- Witness for C9 at the tile `st<bf16, 16, 16>` and coordinate `(0, 1)`:
the hypotheses hold and the swizzle term there is zero. -/
theorem C9_accessors_witness :
    ((st.mk 2 16 16).wf ∧ 0 < 16 ∧ 1 < 16
      ∧ 16 * 16 * 2 ≤ WORD
      ∧ (st.mk 2 16 16).idx 0 0 1 / 2 = 0 * 16 + 1)
    ∧ swizzleTerm ((st.mk 2 16 16).swz * 8) ((st.mk 2 16 16).rawAddr 0 0 1) = 0 :=
  ⟨⟨by unfold st.wf; decide, by decide, by decide, by decide, by decide⟩,
   C9_accessors.2.2 (st.mk 2 16 16) 0 1 (by unfold st.wf; decide) (by decide)
     (by decide) (by decide) (by decide)⟩

/-- C10: every subtile built through the `st_subtile(src, rowcol)`
constructor has `row_offset = rowcol.x * rows` and
`col_offset = rowcol.y * cols`; with the subtile extents statically required
to be multiples of the base-tile quantum, both offsets are multiples of the
base-tile quantum for every `rowcol`. -/
theorem C10_subtile_offset_invariant (src : st) (rows cols x y : ℕ)
    (hr : rows % TILE_ROW_DIM = 0) (hc : cols % TILE_COL_DIM src.es = 0) :
    (st_subtile.make src rows cols x y).row_offset = x * rows
    ∧ (st_subtile.make src rows cols x y).col_offset = y * cols
    ∧ (st_subtile.make src rows cols x y).row_offset % TILE_ROW_DIM = 0
    ∧ (st_subtile.make src rows cols x y).col_offset % TILE_COL_DIM src.es = 0 := by
  refine ⟨rfl, rfl, ?_, ?_⟩
  · have h : TILE_ROW_DIM ∣ rows := Nat.dvd_of_mod_eq_zero hr
    exact Nat.mod_eq_zero_of_dvd (Dvd.dvd.mul_left h x)
  · have h : TILE_COL_DIM src.es ∣ cols := Nat.dvd_of_mod_eq_zero hc
    exact Nat.mod_eq_zero_of_dvd (Dvd.dvd.mul_left h y)

/-- Witness for C10 at `st<bf16, 32, 32>`, a 16 x 16 subtile placed at
`rowcol = (3, 5)`. -/
theorem C10_subtile_offset_invariant_witness :
    (16 % TILE_ROW_DIM = 0 ∧ 16 % TILE_COL_DIM (st.mk 2 32 32).es = 0)
    ∧ (st_subtile.make (st.mk 2 32 32) 16 16 3 5).row_offset = 3 * 16
    ∧ (st_subtile.make (st.mk 2 32 32) 16 16 3 5).col_offset = 5 * 16
    ∧ (st_subtile.make (st.mk 2 32 32) 16 16 3 5).row_offset % TILE_ROW_DIM = 0
    ∧ (st_subtile.make (st.mk 2 32 32) 16 16 3 5).col_offset
        % TILE_COL_DIM (st.mk 2 32 32).es = 0 :=
  ⟨⟨by decide, by decide⟩,
   C10_subtile_offset_invariant (st.mk 2 32 32) 16 16 3 5 (by decide) (by decide)⟩

theorem applyWrites_self {α : Type} (ws : List (ℕ × α)) (m : Mem α)
    (h : ∀ w ∈ ws, w.2 = m w.1) : applyWrites ws m = m := by
  induction ws with
  | nil => rfl
  | cons w ws ih =>
    have hw : w.2 = m w.1 := h w (List.mem_cons_self w ws)
    have hrest : ∀ w' ∈ ws, w'.2 = m w'.1 :=
      fun w' hw' => h w' (List.mem_cons_of_mem w hw')
    calc applyWrites (w :: ws) m
        = applyWrites ws (Function.update m w.1 w.2) := rfl
      _ = applyWrites ws m := by rw [hw, Function.update_eq_self]
      _ = m := ih hrest

theorem ldsm_writes_match {α : Type} (pat : ℕ → Fin 4 → ℕ × ℕ)
    (σ : Fin 4 → Fin 4) (hσ : ∀ k, σ (σ k) = k) (mem : Mem α) (a : ℕ) :
    ∀ w ∈ ldsmWrites pat σ a (ldsmRead pat σ mem a), w.2 = mem w.1 := by
  intro w hw
  simp only [ldsmWrites, ldsmRead, List.mem_flatMap, List.mem_cons,
    List.not_mem_nil, or_false] at hw
  obtain ⟨k, -, hk⟩ := hw
  rcases hk with h | h <;> subst h <;> simp [hσ]

theorem blit_writes_match {α : Type} (t : st) (sh ro co : ℕ) (mem : Mem α)
    (l i j : ℕ) :
    ∀ w ∈ store4RowWrites t sh ro co (load4RowFrag t sh ro co mem l i j) l i j,
      w.2 = mem w.1 := by
  intro w hw
  by_cases hb : blit4 t.es l ≠ 0 <;>
    simp only [store4RowWrites, load4RowFrag, if_pos, if_neg, hb, if_true,
      if_false, ite_true, ite_false, List.mem_cons, List.not_mem_nil,
      or_false, ne_eq, not_true, not_false_iff] at hw ⊢ <;>
    rcases hw with h | h | h | h | h | h | h | h <;> subst h <;> simp [hb]

theorem col_writes_match {α : Type} (t : st) (sh : ℕ) (mem : Mem α)
    (l i j : ℕ) :
    ∀ w ∈ storeColWrites t sh (loadColFrag t sh mem l i j) l i j,
      w.2 = mem w.1 := by
  intro w hw
  simp only [storeColWrites, loadColFrag, List.mem_cons, List.not_mem_nil,
    or_false] at hw
  rcases hw with h | h | h | h | h | h | h | h <;> subst h <;> simp

/-- C3: for every supported element width and fragment orientation,
storing a register tile that was just loaded from a shared tile writes back
to every touched address exactly the value that was read from it, so a
load-then-store round trip reproduces the shared tile's contents exactly
(conversions between equal element types are the identity); in particular
the lane-parity blit swap of the 4-byte row-major path is self-inverse and
applied identically in load and store.  The theorem is quantified over the
`ldsm`/`stsm` address pattern, so it holds for every architecture
instantiation of the grouped-move wrappers. -/
theorem C3_load_store_roundtrip (α : Type) (t : st) (lay : RTLayout)
    (pat4 pat4t : ℕ → Fin 4 → ℕ × ℕ) (sh ro co height width : ℕ)
    (mem : Mem α) (prev : ℕ → ℕ → ℕ → Frag α)
    (hsup : supportedTransfer t.es lay) :
    applyWrites (warpWrites height width (fun l i j =>
      storeFragWrites true t lay pat4 pat4t sh ro co
        (loadFrag t lay pat4 pat4t sh ro co mem (prev l i j) l i j) l i j))
      mem = mem := by
  apply applyWrites_self
  intro w hw
  simp only [warpWrites, List.mem_flatMap, List.mem_range] at hw
  obtain ⟨l, -, i, -, j, -, hw⟩ := hw
  have hperm : ∀ k, ldsmPerm (ldsmPerm k) = k := by decide
  have hid : ∀ k : Fin 4, id (id k) = k := fun _ => rfl
  rcases hsup with h2 | ⟨h1, hrow⟩ | h4
  · cases lay with
    | row =>
      simp only [loadFrag, storeFragWrites, h2, if_true, ite_true,
        reduceIte] at hw
      exact ldsm_writes_match pat4 id hid mem _ w hw
    | col =>
      simp only [loadFrag, storeFragWrites, h2, if_true, ite_true,
        reduceIte] at hw
      exact ldsm_writes_match pat4t ldsmPerm hperm mem _ w hw
  · subst hrow
    simp only [loadFrag, storeFragWrites, h1, reduceIte] at hw
    exact ldsm_writes_match pat4 id hid mem _ w hw
  · cases lay with
    | row =>
      simp only [loadFrag, storeFragWrites, h4, reduceIte] at hw
      exact blit_writes_match t sh ro co mem l i j w hw
    | col =>
      simp only [loadFrag, storeFragWrites, h4, reduceIte] at hw
      exact col_writes_match t sh mem l i j w hw

/-- Witness for C3: the round trip at a concrete 4-byte row-major tile,
pattern and memory. -/
theorem C3_load_store_roundtrip_witness :
    supportedTransfer (st.mk 4 16 16).es RTLayout.row
    ∧ applyWrites (warpWrites 1 1 (fun l i j =>
        storeFragWrites true (st.mk 4 16 16) RTLayout.row
          (fun a k => (a + 4 * k.val, a + 4 * k.val + 2))
          (fun a k => (a + 4 * k.val, a + 4 * k.val + 2)) 0 0 0
          (loadFrag (st.mk 4 16 16) RTLayout.row
            (fun a k => (a + 4 * k.val, a + 4 * k.val + 2))
            (fun a k => (a + 4 * k.val, a + 4 * k.val + 2)) 0 0 0
            (fun a : ℕ => (a : ℤ)) ((fun _ _ _ => fun _ => (0, 0)) l i j) l i j)
          l i j))
      (fun a : ℕ => (a : ℤ)) = fun a : ℕ => (a : ℤ) :=
  ⟨Or.inr (Or.inr rfl),
   C3_load_store_roundtrip ℤ (st.mk 4 16 16) RTLayout.row
     (fun a k => (a + 4 * k.val, a + 4 * k.val + 2))
     (fun a k => (a + 4 * k.val, a + 4 * k.val + 2)) 0 0 0 1 1
     (fun a : ℕ => (a : ℤ)) (fun _ _ _ => fun _ => (0, 0))
     (Or.inr (Or.inr rfl))⟩

/-- C5: `atomic_add` with a 1-byte element type is rejected by the
compile-time `static_assert` (a build failure, not a runtime failure),
while 2- and 4-byte element types pass the guard; for those the operation
issues its atomic-add contributions at exactly the addresses (and with
exactly the converted values) of the explicit store path, and applying a
contribution adds to the current memory value rather than overwriting
it. -/
theorem C5_atomic_add_semantics :
    (¬ atomic_add_compiles 1) ∧ atomic_add_compiles 2 ∧ atomic_add_compiles 4
    ∧ (∀ (α : Type) (t : st) (lay : RTLayout)
        (pat4 pat4t : ℕ → Fin 4 → ℕ × ℕ) (sh ro co : ℕ) (frag : Frag α)
        (l i j : ℕ), t.es = 2 ∨ t.es = 4 →
        atomicAddWrites t lay sh ro co frag l i j
          = storeFragWrites false t lay pat4 pat4t sh ro co frag l i j)
    ∧ (∀ (m : Mem ℤ) (a : ℕ) (v : ℤ), applyAtomicAdds [(a, v)] m a = m a + v) := by
  refine ⟨by unfold atomic_add_compiles; simp,
    by unfold atomic_add_compiles; simp,
    by unfold atomic_add_compiles; simp, ?_, ?_⟩
  · intro α t lay pat4 pat4t sh ro co frag l i j h
    rcases h with h2 | h4
    · cases lay <;> · simp only [atomicAddWrites, storeFragWrites, h2]; rfl
    · cases lay <;> · simp only [atomicAddWrites, storeFragWrites, h4]; rfl
  · intro m a v
    simp [applyAtomicAdds]

/-- Witness for C5: the address/value agreement between `atomic_add` and
the explicit store at a concrete 2-byte row-major tile. -/
theorem C5_atomic_add_semantics_witness :
    ((st.mk 2 16 16).es = 2 ∨ (st.mk 2 16 16).es = 4)
    ∧ atomicAddWrites (st.mk 2 16 16) RTLayout.row 0 0 0
        ((fun _ => ((0 : ℤ), (0 : ℤ))) : Frag ℤ) 0 0 0
      = storeFragWrites false (st.mk 2 16 16) RTLayout.row
          (fun a _ => (a, a)) (fun a _ => (a, a)) 0 0 0
          ((fun _ => ((0 : ℤ), (0 : ℤ))) : Frag ℤ) 0 0 0 :=
  ⟨Or.inl rfl,
   C5_atomic_add_semantics.2.2.2.1 ℤ (st.mk 2 16 16) RTLayout.row
     (fun a _ => (a, a)) (fun a _ => (a, a)) 0 0 0
     ((fun _ => ((0 : ℤ), (0 : ℤ))) : Frag ℤ) 0 0 0 (Or.inl rfl)⟩

/-- C8: the compile-time dispatch of the Transfer Engine does not cover
every element-width/orientation combination: `load` of a 1-byte (fp8)
shared tile into a column-major register fragment selects no `if constexpr`
branch and carries no `static_assert` on that combination, so it compiles
and moves no data (the destination fragment is returned untouched and no
read or write is issued), while all five other combinations select a
data-movement case and `store` covers all six.  This contradicts the claim
that every combination either has a defined data-movement case or fails to
compile. -/
theorem C8_silent_noop_combination :
    loadCase 1 RTLayout.col = none
    ∧ ((loadCase 1 RTLayout.row).isSome = true
      ∧ (loadCase 2 RTLayout.row).isSome = true
      ∧ (loadCase 2 RTLayout.col).isSome = true
      ∧ (loadCase 4 RTLayout.row).isSome = true
      ∧ (loadCase 4 RTLayout.col).isSome = true)
    ∧ ((storeCase 1 RTLayout.row).isSome = true
      ∧ (storeCase 1 RTLayout.col).isSome = true
      ∧ (storeCase 2 RTLayout.row).isSome = true
      ∧ (storeCase 2 RTLayout.col).isSome = true
      ∧ (storeCase 4 RTLayout.row).isSome = true
      ∧ (storeCase 4 RTLayout.col).isSome = true)
    ∧ (∀ (pat4 pat4t : ℕ → Fin 4 → ℕ × ℕ) (sh ro co : ℕ) (mem : Mem ℤ)
        (prev : Frag ℤ) (l i j : ℕ),
        loadFrag (st.mk 1 16 32) RTLayout.col pat4 pat4t sh ro co mem prev
          l i j = prev) := by
  refine ⟨by decide, ⟨by decide, by decide, by decide, by decide, by decide⟩,
    ⟨by decide, by decide, by decide, by decide, by decide, by decide⟩, ?_⟩
  intro pat4 pat4t sh ro co mem prev l i j
  rfl

theorem optGuard_isSome {β : Type} (c : Prop) [Decidable c] (v : β) :
    (if c then some v else none).isSome = true ↔ c := by
  split_ifs with h <;> simp [h]

/-- C6: the multiply-accumulate dispatcher instantiates exactly for the
closed set of (accumulator, operand) pairs (float, bf16), (float, half),
(half, half) with sign flag +1 or -1, and is a compile-time rejection for
every other type pairing or sign value — for both the
fragment-times-shared-tile (`rt_st`) and shared-times-shared (`st_st`)
forms. -/
theorem C6_wgmma_closed_set :
    (∀ (td tab : GpuT) (s : ℤ) (D : Matrix (Fin 64) (Fin 80) ℤ)
        (A : Matrix (Fin 64) (Fin 16) ℤ) (B : Matrix (Fin 16) (Fin 80) ℤ)
        (sd : ℤ),
      (rt_st_model td tab s D A B sd).isSome = true
        ↔ (td, tab) ∈ ([(GpuT.float, GpuT.bf16), (GpuT.float, GpuT.half),
            (GpuT.half, GpuT.half)] : List (GpuT × GpuT)) ∧ (s = 1 ∨ s = -1))
    ∧ (∀ (td tab : GpuT) (s : ℤ) (D : Matrix (Fin 64) (Fin 80) ℤ)
        (A : Matrix (Fin 64) (Fin 16) ℤ) (B : Matrix (Fin 16) (Fin 80) ℤ)
        (sd : ℤ),
      (st_st_model td tab s D A B sd).isSome = true
        ↔ (td, tab) ∈ ([(GpuT.float, GpuT.bf16), (GpuT.float, GpuT.half),
            (GpuT.half, GpuT.half)] : List (GpuT × GpuT)) ∧ (s = 1 ∨ s = -1)) := by
  constructor
  · intro td tab s D A B sd
    unfold rt_st_model
    rw [optGuard_isSome]
    cases td <;> cases tab <;>
      simp [rt_st_type_ok, scale_b_ok]
  · intro td tab s D A B sd
    unfold st_st_model
    rw [optGuard_isSome]
    cases td <;> cases tab <;>
      simp [st_st_type_ok, scale_b_ok]

/-- C7: with accumulator float, operand half (16-bit float),
`accumulate = false` (`scale_d = 0`), sign `+1` and no transposes, a 64 x 16
operand A and a 16 x 80 operand B of (exactly representable) integer-valued
entries yield through one m64n80k16 issue a 64 x 80 result exactly equal to
the dense reference matrix product, for both dispatcher forms; the modelled
instruction semantics is `D = (accumulate ? D : 0) + sign x A @ B`. -/
theorem C7_mma_exact_product :
    ∀ (D : Matrix (Fin 64) (Fin 80) ℤ) (A : Matrix (Fin 64) (Fin 16) ℤ)
      (B : Matrix (Fin 16) (Fin 80) ℤ),
      rt_st_model GpuT.float GpuT.half 1 D A B 0 = some (A * B)
      ∧ st_st_model GpuT.float GpuT.half 1 D A B 0 = some (A * B) := by
  intro D A B
  constructor <;>
    simp [rt_st_model, st_st_model, wgmmaIssue, rt_st_type_ok,
      st_st_type_ok, scale_b_ok]

end TK
